import Mathlib

/-!
Shallow embedding of the keypeat key auto-repeat library (src/keys.rs).

Rust time stamps and durations are modelled as plain natural numbers of
integral time units (nanoseconds).  Adding a duration to an instant is
plain addition (the Rust operation panics on overflow, which cannot occur
for `Nat`), and `saturating_duration_since` is truncated `Nat`
subtraction, which saturates at zero exactly like the Rust operation.

The Rust `HashMap<K, Option<KeyState>>` is modelled as an association list
`List (K × Option KeyState)` with unique keys; iteration order of `tick`
over the map is the list order (the source iterates in unspecified hash
order, and the specification declares cross-key ordering unspecified).

The handler closure `FnMut(&K, &mut KeyRepeat) -> C` is modelled as a pure
state-passing function `K → H → C × KeyRepeat × H` over an arbitrary
handler-state type `H`; the `KeyRepeat` component is the value the handler
leaves in the `&mut KeyRepeat` flag (initialised to `Enabled` before every
invocation by the caller, exactly as in the source).  The `Default` value
and the `BitOrAssign` operation of the change type `C` are passed
explicitly as `dflt` and `orOp`.

The unbounded `loop` inside `Keys::tick` is given an explicit fuel
parameter: `none` means the loop has not finished within `fuel` iterations.
Termination (existence of sufficient fuel) is proved separately for
positive repeat intervals.

One deliberate deviation, documented where it is used: the source computes
the backlog count in `KeyState::on_release` with IEEE-754 double division
(`as_secs_f64`) and truncation; the embedding uses exact integer division.
The divergence between the two is analysed for claim C1.
-/

/-- Find the lesser of two `Option Nat` values.  Compared to the default
order on `Option`, `none` is strictly greater than any `some`. -/
def min_instant (a b : Option Nat) : Option Nat :=
  match a, b with
  | none, none => none
  | some i, none => some i
  | none, some i => some i
  | some i, some j => some (min i j)

/-- The state a single key can be in (enum `KeyState` in src/keys.rs). -/
inductive KeyState where
  | Pressed (pressed_at : Nat) (fire_count : Nat)
  | Repeated (pressed_at : Nat) (next_repeat : Nat) (fire_count : Nat)
  | ReleasePending (pressed_at : Nat) (fire_count : Nat)
  deriving DecidableEq

/-- Constructor helper `KeyState::pressed`. -/
def KeyState.pressed (pressed_at : Nat) : KeyState :=
  KeyState.Pressed pressed_at 0

/-- Transition on a key press event (`KeyState::on_press`). -/
def KeyState.on_press (s : KeyState) (now : Nat) : KeyState :=
  match s with
  | KeyState.Pressed pressed_at fire_count => KeyState.Pressed pressed_at fire_count
  | KeyState.Repeated pressed_at next_repeat fire_count =>
      KeyState.Repeated pressed_at next_repeat fire_count
  | KeyState.ReleasePending _ fire_count => KeyState.Pressed now fire_count

/-- The `Repeated`-arm body of `KeyState::on_release`:
`diff = now.saturating_duration_since(next_repeat)` is truncated
subtraction; the backlog gains `trunc (diff / interval)` events (the source
computes this quotient in IEEE-754 doubles, see the module comment and the
analysis for claim C1; here it is exact integer division), plus one more
event if `now` is strictly past `next_repeat`. -/
def releaseRepeated (pressed_at next_repeat fire_count : Nat) (now : Nat)
    (interval : Nat) : KeyState :=
  let diff := now - next_repeat
  let fire1 := fire_count + diff / interval
  let fire2 := if next_repeat < now then fire1 + 1 else fire1
  KeyState.ReleasePending pressed_at fire2

/-- Transition on a key release event (`KeyState::on_release`).  The source
arm for `Pressed` past the threshold promotes the state to `Repeated` and
recursively re-invokes `on_release` on it; that recursive call immediately
lands in the `Repeated` arm, so it is unfolded here into the shared helper
`releaseRepeated`.  The result `none` models the `debug_assert!(false)`
firing in the `ReleasePending` arm (a fatal contract violation in debug
builds). -/
def KeyState.on_release? (s : KeyState) (now : Nat) (timeout interval : Nat) :
    Option KeyState :=
  match s with
  | KeyState.Pressed pressed_at fire_count =>
      let next_repeat := pressed_at + timeout
      if next_repeat ≤ now then
        some (releaseRepeated pressed_at next_repeat (fire_count + 1) now interval)
      else
        some (KeyState.ReleasePending pressed_at (fire_count + 1))
  | KeyState.Repeated pressed_at next_repeat fire_count =>
      some (releaseRepeated pressed_at next_repeat fire_count now interval)
  | KeyState.ReleasePending _ _ => none

/-- Release-build semantics of `KeyState::on_release`: when the debug
assertion would fire (`ReleasePending` arm), the state is left unchanged. -/
def KeyState.on_release (s : KeyState) (now : Nat) (timeout interval : Nat) :
    KeyState :=
  (s.on_release? now timeout interval).getD s

/-- Pure query for the next due instant (`KeyState::next_tick`). -/
def KeyState.next_tick (s : KeyState) : Option Nat :=
  match s with
  | KeyState.Pressed pressed_at _ => some pressed_at
  | KeyState.Repeated pressed_at next_repeat fire_count =>
      if fire_count > 0 then some pressed_at else some next_repeat
  | KeyState.ReleasePending pressed_at fire_count =>
      if fire_count > 0 then some pressed_at else none

/-- Advance the state by exactly one delivered event (`KeyState::tick`).
`checked_sub` distinguishes a positive backlog from zero; `saturating_sub`
is truncated `Nat` subtraction. -/
def KeyState.tick (s : KeyState) (timeout interval : Nat) : KeyState :=
  match s with
  | KeyState.Pressed pressed_at fire_count =>
      match fire_count with
      | Nat.succ count => KeyState.Pressed pressed_at count
      | 0 => KeyState.Repeated pressed_at (pressed_at + timeout) 0
  | KeyState.Repeated pressed_at next_repeat fire_count =>
      match fire_count with
      | Nat.succ count => KeyState.Repeated pressed_at next_repeat count
      | 0 => KeyState.Repeated pressed_at (next_repeat + interval) 0
  | KeyState.ReleasePending pressed_at fire_count =>
      KeyState.ReleasePending pressed_at (fire_count - 1)

/-- The two auto-key-repeat states supported (enum `KeyRepeat`). -/
inductive KeyRepeat where
  | Enabled
  | Disabled
  deriving DecidableEq

/-- Look up the value stored for the first entry with key `k` in an
association list (the `HashMap` entry lookup). -/
def lookupKey {K V : Type} [DecidableEq K] (k : K) : List (K × V) → Option V
  | [] => none
  | (k2, v) :: rest => if k2 = k then some v else lookupKey k rest

/-- Replace the value of the first entry with key `k` (in-place mutation of
an occupied `HashMap` entry). -/
def updateKey {K V : Type} [DecidableEq K] (k : K) (v : V) : List (K × V) → List (K × V)
  | [] => []
  | (k2, v2) :: rest =>
      if k2 = k then (k2, v) :: rest else (k2, v2) :: updateKey k v rest

/-- Remove the first entry with key `k` (`HashMap::remove`). -/
def eraseKey {K V : Type} [DecidableEq K] (k : K) : List (K × V) → List (K × V)
  | [] => []
  | (k2, v2) :: rest => if k2 = k then rest else (k2, v2) :: eraseKey k rest

/-- The key registry (struct `Keys<K>`): two fixed configuration durations
plus a mapping from key to optional key state.  A `none` value is a
tombstone: the key is logically gone but not yet physically removed. -/
structure Keys (K : Type) where
  timeout : Nat
  interval : Nat
  pressed : List (K × Option KeyState)
  deriving DecidableEq

/-- Create a new registry (`Keys::new`). -/
def Keys.new {K : Type} (timeout interval : Nat) : Keys K :=
  { timeout := timeout, interval := interval, pressed := [] }

/-- Apply a raw key event (`Keys::on_key_event`).  `pressedFlag = true` is a
press, `false` a release; the cases mirror the `Entry` match of the
source. -/
def Keys.on_key_event {K : Type} [DecidableEq K] (ks : Keys K) (now : Nat) (key : K)
    (pressedFlag : Bool) : Keys K :=
  match pressedFlag with
  | false =>
      match lookupKey key ks.pressed with
      | none => ks
      | some none =>
          { timeout := ks.timeout, interval := ks.interval
            pressed := eraseKey key ks.pressed }
      | some (some st) =>
          { timeout := ks.timeout, interval := ks.interval
            pressed := updateKey key (some (st.on_release now ks.timeout ks.interval)) ks.pressed }
  | true =>
      match lookupKey key ks.pressed with
      | none =>
          { timeout := ks.timeout, interval := ks.interval
            pressed := ks.pressed ++ [(key, some (KeyState.pressed now))] }
      | some none =>
          { timeout := ks.timeout, interval := ks.interval
            pressed := updateKey key (some (KeyState.pressed now)) ks.pressed }
      | some (some st) =>
          { timeout := ks.timeout, interval := ks.interval
            pressed := updateKey key (some (st.on_press now)) ks.pressed }

/-- Public press entry point (`Keys::on_key_press`). -/
def Keys.on_key_press {K : Type} [DecidableEq K] (ks : Keys K) (now : Nat) (key : K) :
    Keys K :=
  ks.on_key_event now key true

/-- Public release entry point (`Keys::on_key_release`). -/
def Keys.on_key_release {K : Type} [DecidableEq K] (ks : Keys K) (now : Nat) (key : K) :
    Keys K :=
  ks.on_key_event now key false

/-- Clear all pressed keys (`Keys::clear`). -/
def Keys.clear {K : Type} (ks : Keys K) : Keys K :=
  { timeout := ks.timeout, interval := ks.interval, pressed := [] }

/-- Outcome of draining one key inside `Keys::tick`: either the key stays
live with the deadline it contributed to `next_tick` (the loop exited via
`tick > now`), or the key was tombstoned (`*key_state_opt = None`). -/
inductive KeyOutcome where
  | live (st : KeyState) (deadline : Nat)
  | dead
  deriving DecidableEq

/-- Result of draining one key: the outcome together with the handler
return values, the handler invocations (one list entry per call, in call
order) and the threaded handler state. -/
structure DrainRes (K C H : Type) where
  outcome : KeyOutcome
  changes : List C
  calls : List K
  hstate : H

/-- The inner `loop` of `Keys::tick` for one key, with explicit fuel.
Each iteration queries `next_tick`; a future deadline exits keeping the key
live, an absent deadline tombstones the key, a due deadline invokes the
handler and either tombstones (flag left `Disabled`) or advances the state
by one event and loops. -/
def drainKey {K C H : Type} (timeout interval : Nat) (now : Nat)
    (handler : K → H → C × KeyRepeat × H) (key : K) :
    Nat → KeyState → H → Option (DrainRes K C H)
  | 0, _, _ => none
  | Nat.succ fuel, s, h =>
      match s.next_tick with
      | none => some { outcome := KeyOutcome.dead, changes := [], calls := [], hstate := h }
      | some t =>
          if now < t then
            some { outcome := KeyOutcome.live s t, changes := [], calls := [], hstate := h }
          else
            match handler key h with
            | (c, KeyRepeat.Disabled, h2) =>
                some { outcome := KeyOutcome.dead, changes := [c], calls := [key], hstate := h2 }
            | (c, KeyRepeat.Enabled, h2) =>
                match drainKey timeout interval now handler key fuel (s.tick timeout interval) h2 with
                | none => none
                | some r =>
                    some { outcome := r.outcome, changes := c :: r.changes
                           calls := key :: r.calls, hstate := r.hstate }

/-- Intermediate result of the outer `for` loop of `Keys::tick`: handler
return values and invocations across all keys in iteration order, the
accumulated `next_tick` minimum, the updated mapping, the threaded handler
state and the at-most-one key recorded for physical removal. -/
structure TickGoRes (K C H : Type) where
  changes : List C
  next_tick : Option Nat
  pressed : List (K × Option KeyState)
  calls : List K
  hstate : H
  remove : Option K

/-- The outer `for` loop of `Keys::tick` over the mapping entries.
Tombstoned entries (`none`) are skipped untouched; live entries are drained
by `drainKey`.  `remove` keeps the first key tombstoned during this call
(`remove.or(Some(*key))` in the source). -/
def tickGo {K C H : Type} (timeout interval : Nat) (now : Nat)
    (handler : K → H → C × KeyRepeat × H) (fuel : Nat) :
    List (K × Option KeyState) → H → Option (TickGoRes K C H)
  | [], h =>
      some { changes := [], next_tick := none, pressed := [], calls := [], hstate := h
             remove := none }
  | (key, none) :: rest, h =>
      match tickGo timeout interval now handler fuel rest h with
      | none => none
      | some r =>
          some { changes := r.changes, next_tick := r.next_tick
                 pressed := (key, none) :: r.pressed, calls := r.calls, hstate := r.hstate
                 remove := r.remove }
  | (key, some st) :: rest, h =>
      match drainKey timeout interval now handler key fuel st h with
      | none => none
      | some d =>
          match tickGo timeout interval now handler fuel rest d.hstate with
          | none => none
          | some r =>
              match d.outcome with
              | KeyOutcome.live st2 dl =>
                  some { changes := d.changes ++ r.changes
                         next_tick := min_instant (some dl) r.next_tick
                         pressed := (key, some st2) :: r.pressed
                         calls := d.calls ++ r.calls, hstate := r.hstate, remove := r.remove }
              | KeyOutcome.dead =>
                  some { changes := d.changes ++ r.changes, next_tick := r.next_tick
                         pressed := (key, none) :: r.pressed
                         calls := d.calls ++ r.calls, hstate := r.hstate, remove := some key }

/-- Result of `Keys::tick`: the aggregated change value, the next wake-up
instant, the updated registry, the final handler state, and the handler
invocations of this call in order (the observable sequence of handler
calls). -/
structure TickResult (K C H : Type) where
  change : C
  next_tick : Option Nat
  keys : Keys K
  hstate : H
  calls : List K

/-- Handle a tick (`Keys::tick`): run the loop over all entries, then
physically remove the at most one key recorded for removal.  The aggregate
starts from the default value `dflt` and absorbs each handler return value
in call order via `orOp` (the `BitOrAssign` bound). -/
def Keys.tick {K C H : Type} [DecidableEq K] (ks : Keys K) (now : Nat)
    (handler : K → H → C × KeyRepeat × H) (dflt : C) (orOp : C → C → C)
    (h : H) (fuel : Nat) : Option (TickResult K C H) :=
  match tickGo ks.timeout ks.interval now handler fuel ks.pressed h with
  | none => none
  | some r =>
      let pressed :=
        match r.remove with
        | some key => eraseKey key r.pressed
        | none => r.pressed
      some { change := r.changes.foldl orOp dflt, next_tick := r.next_tick
             keys := { timeout := ks.timeout, interval := ks.interval, pressed := pressed }
             hstate := r.hstate, calls := r.calls }

/-- Iterated `tick` calls: thread registry and handler state through a list
of `(now, fuel)` pairs and collect all handler invocations. -/
def Keys.tickMany {K C H : Type} [DecidableEq K] (handler : K → H → C × KeyRepeat × H)
    (dflt : C) (orOp : C → C → C) :
    Keys K → H → List (Nat × Nat) → Option (Keys K × H × List K)
  | ks, h, [] => some (ks, h, [])
  | ks, h, (now, fuel) :: rest =>
      match ks.tick now handler dflt orOp h fuel with
      | none => none
      | some res =>
          match Keys.tickMany handler dflt orOp res.keys res.hstate rest with
          | none => none
          | some (ks2, h2, calls) => some (ks2, h2, res.calls ++ calls)

/-- Deadline contributed by one mapping entry: the `next_tick` of a live
state, nothing for a tombstone. -/
def entryDeadline {K : Type} : K × Option KeyState → Option Nat
  | (_, some st) => st.next_tick
  | (_, none) => none

/-- The minimum (under `min_instant`) of the deadlines of all entries of a
mapping. -/
def deadlinesOf {K : Type} (l : List (K × Option KeyState)) : Option Nat :=
  l.foldr (fun kv acc => min_instant (entryDeadline kv) acc) none

/-- Upper bound on the number of inner loop iterations `drainKey` can take
for one state: the backlog plus, for states still heading to or in repeat
mode, the number of repeat instants not past `now`.  Used only for the
termination argument. -/
def keySteps (now : Nat) (timeout : Nat) : KeyState → Nat
  | KeyState.Pressed pressed_at fire_count =>
      fire_count + 1 + (now + 1 - (pressed_at + timeout))
  | KeyState.Repeated _ next_repeat fire_count => fire_count + (now + 1 - next_repeat)
  | KeyState.ReleasePending _ fire_count => fire_count

/-- Sanity check mirroring the press-release-without-tick test of the
source: a press at 0 and release at 1 drained by a tick at 1 delivers one
event, reports no wake-up and empties the mapping. -/
theorem press_release_without_tick_check :
    ((((Keys.new 5 1 : Keys Nat).on_key_press 0 0).on_key_release 1 0).tick 1
        (fun _ h => (true, KeyRepeat.Enabled, h + 1)) false or 0 10).map
      (fun r => (r.calls.length, r.next_tick, r.keys.pressed)) = some (1, none, []) := by
  decide

/-! Basic lemmas about the association-list map and deadline minimum. -/

theorem min_instant_none_left (b : Option Nat) : min_instant none b = b := by
  cases b <;> rfl

theorem min_instant_some_gt {now : Nat} {a b : Option Nat}
    (ha : ∀ t, a = some t → now < t) (hb : ∀ t, b = some t → now < t) :
    ∀ d, min_instant a b = some d → now < d := by
  intro d hd
  cases a with
  | none =>
      cases b with
      | none => simp [min_instant] at hd
      | some j => simp [min_instant] at hd; subst hd; exact hb _ rfl
  | some i =>
      cases b with
      | none => simp [min_instant] at hd; subst hd; exact ha _ rfl
      | some j =>
          simp [min_instant] at hd; subst hd
          exact lt_min (ha _ rfl) (hb _ rfl)

theorem lookupKey_eq_none {K V : Type} [DecidableEq K] {k : K} :
    ∀ {l : List (K × V)}, lookupKey k l = none ↔ k ∉ l.map Prod.fst := by
  intro l
  induction l with
  | nil => simp [lookupKey]
  | cons kv rest ih =>
      obtain ⟨k2, v⟩ := kv
      by_cases hk : k2 = k
      · subst hk; simp [lookupKey]
      · have hk2 : k ≠ k2 := fun h => hk h.symm
        simp [lookupKey, hk, hk2, ih]

theorem lookupKey_mem {K V : Type} [DecidableEq K] {k : K} {v : V} :
    ∀ {l : List (K × V)}, lookupKey k l = some v → (k, v) ∈ l := by
  intro l
  induction l with
  | nil => intro h; simp [lookupKey] at h
  | cons kv rest ih =>
      obtain ⟨k2, v2⟩ := kv
      intro h
      by_cases hk : k2 = k
      · subst hk
        simp [lookupKey] at h
        subst h
        exact List.mem_cons_self _ _
      · simp [lookupKey, hk] at h
        exact List.mem_cons_of_mem _ (ih h)

theorem lookupKey_of_mem {K V : Type} [DecidableEq K] {k : K} {v : V} :
    ∀ {l : List (K × V)}, (l.map Prod.fst).Nodup → (k, v) ∈ l → lookupKey k l = some v := by
  intro l
  induction l with
  | nil => intro _ hm; simp at hm
  | cons kv rest ih =>
      obtain ⟨k2, v2⟩ := kv
      intro hnd hm
      rw [List.map_cons, List.nodup_cons] at hnd
      rcases List.mem_cons.mp hm with heq | hmem
      · cases heq
        simp [lookupKey]
      · have hk : k2 ≠ k := by
          intro hkk
          subst hkk
          exact hnd.1 (List.mem_map.mpr ⟨(k2, v), hmem, rfl⟩)
        simp only [lookupKey, if_neg hk]
        exact ih hnd.2 hmem

theorem updateKey_self {K V : Type} [DecidableEq K] {k : K} {v : V} :
    ∀ {l : List (K × V)}, lookupKey k l = some v → updateKey k v l = l := by
  intro l
  induction l with
  | nil => intro h; simp [lookupKey] at h
  | cons kv rest ih =>
      obtain ⟨k2, v2⟩ := kv
      intro h
      by_cases hk : k2 = k
      · subst hk
        simp [lookupKey] at h
        simp [updateKey, h]
      · simp [lookupKey, hk] at h
        simp [updateKey, hk, ih h]

theorem mem_eraseKey {K V : Type} [DecidableEq K] {k : K} {x : K × V} :
    ∀ {l : List (K × V)}, x ∈ eraseKey k l → x ∈ l := by
  intro l
  induction l with
  | nil => intro h; simp [eraseKey] at h
  | cons kv rest ih =>
      obtain ⟨k2, v2⟩ := kv
      intro h
      by_cases hk : k2 = k
      · simp [eraseKey, hk] at h
        exact List.mem_cons_of_mem _ h
      · simp [eraseKey, hk] at h
        rcases h with h | h
        · subst h; exact List.mem_cons_self _ _
        · exact List.mem_cons_of_mem _ (ih h)

theorem map_fst_eraseKey_sublist {K V : Type} [DecidableEq K] {k : K} :
    ∀ {l : List (K × V)}, ((eraseKey k l).map Prod.fst).Sublist (l.map Prod.fst) := by
  intro l
  induction l with
  | nil => simp [eraseKey]
  | cons kv rest ih =>
      obtain ⟨k2, v2⟩ := kv
      by_cases hk : k2 = k
      · simp [eraseKey, hk]
      · simp [eraseKey, hk]
        exact ih

theorem lookupKey_eraseKey_ne {K V : Type} [DecidableEq K] {k k2 : K} (hne : k ≠ k2) :
    ∀ {l : List (K × V)}, lookupKey k (eraseKey k2 l) = lookupKey k l := by
  intro l
  induction l with
  | nil => simp [eraseKey]
  | cons kv rest ih =>
      obtain ⟨k3, v3⟩ := kv
      by_cases hk : k3 = k2
      · subst hk
        have h3 : k3 ≠ k := fun h => hne h.symm
        simp [eraseKey, lookupKey, h3]
      · by_cases hk3 : k3 = k
        · subst hk3
          simp [eraseKey, hk, lookupKey]
        · simp [eraseKey, hk, lookupKey, hk3, ih]

theorem eraseKey_length {K V : Type} [DecidableEq K] {k : K} :
    ∀ {l : List (K × V)}, l.length ≤ (eraseKey k l).length + 1 := by
  intro l
  induction l with
  | nil => simp [eraseKey]
  | cons kv rest ih =>
      obtain ⟨k2, v2⟩ := kv
      by_cases hk : k2 = k
      · simp [eraseKey, hk]
      · simp [eraseKey, hk]
        omega

theorem deadlinesOf_cons {K : Type} (kv : K × Option KeyState) (l : List (K × Option KeyState)) :
    deadlinesOf (kv :: l) = min_instant (entryDeadline kv) (deadlinesOf l) := rfl

theorem deadlinesOf_eraseKey {K : Type} [DecidableEq K] {k : K} :
    ∀ {l : List (K × Option KeyState)}, lookupKey k l = some none →
      deadlinesOf (eraseKey k l) = deadlinesOf l := by
  intro l
  induction l with
  | nil => intro h; simp [lookupKey] at h
  | cons kv rest ih =>
      obtain ⟨k2, v2⟩ := kv
      intro h
      by_cases hk : k2 = k
      · subst hk
        simp [lookupKey] at h
        subst h
        simp [eraseKey, deadlinesOf_cons, entryDeadline, min_instant_none_left]
      · simp [lookupKey, hk] at h
        simp [eraseKey, hk, deadlinesOf_cons, ih h]

/-! Inversion lemmas for one step of the drain loop and the outer loop. -/

theorem drainKey_zero {K C H : Type} {timeout interval : Nat} {now : Nat}
    {handler : K → H → C × KeyRepeat × H} {key : K} {s : KeyState} {h : H} :
    drainKey timeout interval now handler key 0 s h = none := rfl

theorem drainKey_succ_inv {K C H : Type} {timeout interval : Nat} {now : Nat}
    {handler : K → H → C × KeyRepeat × H} {key : K} {fuel : Nat} {s : KeyState} {h : H}
    {r : DrainRes K C H}
    (hr : drainKey timeout interval now handler key (Nat.succ fuel) s h = some r) :
    (s.next_tick = none ∧
        r = { outcome := KeyOutcome.dead, changes := [], calls := [], hstate := h }) ∨
    (∃ t, s.next_tick = some t ∧ now < t ∧
        r = { outcome := KeyOutcome.live s t, changes := [], calls := [], hstate := h }) ∨
    (∃ t c h2, s.next_tick = some t ∧ ¬ now < t ∧
        handler key h = (c, KeyRepeat.Disabled, h2) ∧
        r = { outcome := KeyOutcome.dead, changes := [c], calls := [key], hstate := h2 }) ∨
    (∃ t c h2 r2, s.next_tick = some t ∧ ¬ now < t ∧
        handler key h = (c, KeyRepeat.Enabled, h2) ∧
        drainKey timeout interval now handler key fuel (s.tick timeout interval) h2 = some r2 ∧
        r = { outcome := r2.outcome, changes := c :: r2.changes
              calls := key :: r2.calls, hstate := r2.hstate }) := by
  simp only [drainKey] at hr
  split at hr
  · cases hr
    rename_i heq
    exact Or.inl ⟨heq, rfl⟩
  · rename_i t heq
    split at hr
    · cases hr
      rename_i hlt
      exact Or.inr (Or.inl ⟨t, heq, hlt, rfl⟩)
    · rename_i hlt
      split at hr
      · cases hr
        rename_i c h2 hh
        exact Or.inr (Or.inr (Or.inl ⟨t, c, h2, heq, hlt, hh, rfl⟩))
      · rename_i c h2 hh
        split at hr
        · cases hr
        · cases hr
          rename_i r2 hd
          exact Or.inr (Or.inr (Or.inr ⟨t, c, h2, r2, heq, hlt, hh, hd, rfl⟩))

theorem tickGo_nil {K C H : Type} {timeout interval : Nat} {now : Nat}
    {handler : K → H → C × KeyRepeat × H} {fuel : Nat} {h : H} :
    tickGo timeout interval now handler fuel ([] : List (K × Option KeyState)) h =
      some { changes := [], next_tick := none, pressed := [], calls := [], hstate := h
             remove := none } := rfl

theorem tickGo_cons_none {K C H : Type} {timeout interval : Nat} {now : Nat}
    {handler : K → H → C × KeyRepeat × H} {fuel : Nat} {key : K}
    {rest : List (K × Option KeyState)} {h : H} :
    tickGo timeout interval now handler fuel ((key, none) :: rest) h =
      (tickGo timeout interval now handler fuel rest h).map
        (fun r => { changes := r.changes, next_tick := r.next_tick
                    pressed := (key, none) :: r.pressed, calls := r.calls, hstate := r.hstate
                    remove := r.remove }) := by
  cases hrec : tickGo timeout interval now handler fuel rest h <;>
    simp [tickGo, hrec]

theorem tickGo_cons_some_inv {K C H : Type} {timeout interval : Nat} {now : Nat}
    {handler : K → H → C × KeyRepeat × H} {fuel : Nat} {key : K} {st : KeyState}
    {rest : List (K × Option KeyState)} {h : H} {r : TickGoRes K C H}
    (hr : tickGo timeout interval now handler fuel ((key, some st) :: rest) h = some r) :
    ∃ d r2, drainKey timeout interval now handler key fuel st h = some d ∧
      tickGo timeout interval now handler fuel rest d.hstate = some r2 ∧
      ((∃ st2 dl, d.outcome = KeyOutcome.live st2 dl ∧
          r = { changes := d.changes ++ r2.changes
                next_tick := min_instant (some dl) r2.next_tick
                pressed := (key, some st2) :: r2.pressed
                calls := d.calls ++ r2.calls, hstate := r2.hstate, remove := r2.remove }) ∨
        (d.outcome = KeyOutcome.dead ∧
          r = { changes := d.changes ++ r2.changes, next_tick := r2.next_tick
                pressed := (key, none) :: r2.pressed
                calls := d.calls ++ r2.calls, hstate := r2.hstate, remove := some key })) := by
  simp only [tickGo] at hr
  split at hr
  · cases hr
  · rename_i d hd
    split at hr
    · cases hr
    · rename_i r2 hrec
      split at hr
      · cases hr
        rename_i st2 dl ho
        exact ⟨d, r2, hd, hrec, Or.inl ⟨st2, dl, ho, rfl⟩⟩
      · cases hr
        rename_i ho
        exact ⟨d, r2, hd, hrec, Or.inr ⟨ho, rfl⟩⟩

/-! Characterisation lemmas for the drain loop and the outer tick loop. -/

theorem drainKey_live {K C H : Type} {timeout interval : Nat} {now : Nat}
    {handler : K → H → C × KeyRepeat × H} {key : K} :
    ∀ {fuel : Nat} {s : KeyState} {h : H} {r : DrainRes K C H},
      drainKey timeout interval now handler key fuel s h = some r →
      ∀ {st : KeyState} {dl : Nat}, r.outcome = KeyOutcome.live st dl →
        st.next_tick = some dl ∧ now < dl := by
  intro fuel
  induction fuel with
  | zero => intro s h r hr; rw [drainKey_zero] at hr; cases hr
  | succ fuel ih =>
      intro s h r hr st dl ho
      rcases drainKey_succ_inv hr with ⟨_, rfl⟩ | ⟨t, hnt, hlt, rfl⟩ |
        ⟨t, c, h2, _, _, _, rfl⟩ | ⟨t, c, h2, r2, _, _, _, hd, rfl⟩
      · cases ho
      · cases ho; exact ⟨hnt, hlt⟩
      · cases ho
      · exact ih hd ho

theorem drainKey_calls {K C H : Type} {timeout interval : Nat} {now : Nat}
    {handler : K → H → C × KeyRepeat × H} {key : K} :
    ∀ {fuel : Nat} {s : KeyState} {h : H} {r : DrainRes K C H},
      drainKey timeout interval now handler key fuel s h = some r →
      ∀ k2, k2 ∈ r.calls → k2 = key := by
  intro fuel
  induction fuel with
  | zero => intro s h r hr; rw [drainKey_zero] at hr; cases hr
  | succ fuel ih =>
      intro s h r hr k2 hm
      rcases drainKey_succ_inv hr with ⟨_, rfl⟩ | ⟨t, _, _, rfl⟩ |
        ⟨t, c, h2, _, _, _, rfl⟩ | ⟨t, c, h2, r2, _, _, _, hd, rfl⟩
      · cases hm
      · cases hm
      · simpa using hm
      · rcases List.mem_cons.mp hm with rfl | hm2
        · rfl
        · exact ih hd k2 hm2

theorem tickGo_map_fst {K C H : Type} {timeout interval : Nat} {now : Nat}
    {handler : K → H → C × KeyRepeat × H} {fuel : Nat} :
    ∀ {l : List (K × Option KeyState)} {h : H} {r : TickGoRes K C H},
      tickGo timeout interval now handler fuel l h = some r →
      r.pressed.map Prod.fst = l.map Prod.fst := by
  intro l
  induction l with
  | nil => intro h r hr; rw [tickGo_nil] at hr; cases hr; rfl
  | cons kv rest ih =>
      obtain ⟨key, v⟩ := kv
      intro h r hr
      cases v with
      | none =>
          rw [tickGo_cons_none] at hr
          cases hrec : tickGo timeout interval now handler fuel rest h with
          | none => rw [hrec] at hr; cases hr
          | some r2 =>
              rw [hrec] at hr
              cases hr
              simpa using ih hrec
      | some st =>
          rcases tickGo_cons_some_inv hr with ⟨d, r2, hd, hrec, hcase⟩
          rcases hcase with ⟨st2, dl, ho, rfl⟩ | ⟨ho, rfl⟩ <;> simpa using ih hrec

theorem tickGo_live {K C H : Type} {timeout interval : Nat} {now : Nat}
    {handler : K → H → C × KeyRepeat × H} {fuel : Nat} :
    ∀ {l : List (K × Option KeyState)} {h : H} {r : TickGoRes K C H},
      tickGo timeout interval now handler fuel l h = some r →
      ∀ k st, (k, some st) ∈ r.pressed → ∃ d, st.next_tick = some d ∧ now < d := by
  intro l
  induction l with
  | nil => intro h r hr; rw [tickGo_nil] at hr; cases hr; intro k st hm; cases hm
  | cons kv rest ih =>
      obtain ⟨key, v⟩ := kv
      intro h r hr k st hm
      cases v with
      | none =>
          rw [tickGo_cons_none] at hr
          cases hrec : tickGo timeout interval now handler fuel rest h with
          | none => rw [hrec] at hr; cases hr
          | some r2 =>
              rw [hrec] at hr
              cases hr
              rcases List.mem_cons.mp hm with heq | hm2
              · cases heq
              · exact ih hrec k st hm2
      | some st0 =>
          rcases tickGo_cons_some_inv hr with ⟨d, r2, hd, hrec, hcase⟩
          rcases hcase with ⟨st2, dl, ho, rfl⟩ | ⟨ho, rfl⟩
          · rcases List.mem_cons.mp hm with heq | hm2
            · cases heq
              obtain ⟨hnt, hlt⟩ := drainKey_live hd ho
              exact ⟨dl, hnt, hlt⟩
            · exact ih hrec k st hm2
          · rcases List.mem_cons.mp hm with heq | hm2
            · cases heq
            · exact ih hrec k st hm2

theorem tickGo_next {K C H : Type} {timeout interval : Nat} {now : Nat}
    {handler : K → H → C × KeyRepeat × H} {fuel : Nat} :
    ∀ {l : List (K × Option KeyState)} {h : H} {r : TickGoRes K C H},
      tickGo timeout interval now handler fuel l h = some r →
      r.next_tick = deadlinesOf r.pressed := by
  intro l
  induction l with
  | nil => intro h r hr; rw [tickGo_nil] at hr; cases hr; rfl
  | cons kv rest ih =>
      obtain ⟨key, v⟩ := kv
      intro h r hr
      cases v with
      | none =>
          rw [tickGo_cons_none] at hr
          cases hrec : tickGo timeout interval now handler fuel rest h with
          | none => rw [hrec] at hr; cases hr
          | some r2 =>
              rw [hrec] at hr
              cases hr
              simp [deadlinesOf_cons, entryDeadline, min_instant_none_left, ih hrec]
      | some st0 =>
          rcases tickGo_cons_some_inv hr with ⟨d, r2, hd, hrec, hcase⟩
          rcases hcase with ⟨st2, dl, ho, rfl⟩ | ⟨ho, rfl⟩
          · obtain ⟨hnt, _⟩ := drainKey_live hd ho
            simp [deadlinesOf_cons, entryDeadline, hnt, ih hrec]
          · simp [deadlinesOf_cons, entryDeadline, min_instant_none_left, ih hrec]

theorem tickGo_tomb {K C H : Type} [DecidableEq K] {timeout interval : Nat}
    {now : Nat} {handler : K → H → C × KeyRepeat × H} {fuel : Nat} :
    ∀ {l : List (K × Option KeyState)} {h : H} {r : TickGoRes K C H} {k : K},
      lookupKey k l = some none →
      tickGo timeout interval now handler fuel l h = some r →
      lookupKey k r.pressed = some none := by
  intro l
  induction l with
  | nil => intro h r k hk hr; rw [lookupKey] at hk; cases hk
  | cons kv rest ih =>
      obtain ⟨key, v⟩ := kv
      intro h r k hk hr
      cases v with
      | none =>
          rw [tickGo_cons_none] at hr
          cases hrec : tickGo timeout interval now handler fuel rest h with
          | none => rw [hrec] at hr; cases hr
          | some r2 =>
              rw [hrec] at hr
              cases hr
              by_cases hkey : key = k
              · simp [lookupKey, hkey]
              · rw [lookupKey, if_neg hkey] at hk
                simp only [lookupKey, if_neg hkey]
                exact ih hk hrec
      | some st0 =>
          have hkey : key ≠ k := by
            intro hkk
            rw [lookupKey, if_pos hkk] at hk
            cases hk
          rw [lookupKey, if_neg hkey] at hk
          rcases tickGo_cons_some_inv hr with ⟨d, r2, hd, hrec, hcase⟩
          rcases hcase with ⟨st2, dl, ho, rfl⟩ | ⟨ho, rfl⟩ <;>
            · simp only [lookupKey, if_neg hkey]
              exact ih hk hrec

theorem tickGo_calls {K C H : Type} {timeout interval : Nat} {now : Nat}
    {handler : K → H → C × KeyRepeat × H} {fuel : Nat} :
    ∀ {l : List (K × Option KeyState)} {h : H} {r : TickGoRes K C H},
      tickGo timeout interval now handler fuel l h = some r →
      ∀ k, k ∈ r.calls → ∃ st, (k, some st) ∈ l := by
  intro l
  induction l with
  | nil => intro h r hr k hm; rw [tickGo_nil] at hr; cases hr; cases hm
  | cons kv rest ih =>
      obtain ⟨key, v⟩ := kv
      intro h r hr k hm
      cases v with
      | none =>
          rw [tickGo_cons_none] at hr
          cases hrec : tickGo timeout interval now handler fuel rest h with
          | none => rw [hrec] at hr; cases hr
          | some r2 =>
              rw [hrec] at hr
              cases hr
              obtain ⟨st, hmem⟩ := ih hrec k hm
              exact ⟨st, List.mem_cons_of_mem _ hmem⟩
      | some st0 =>
          rcases tickGo_cons_some_inv hr with ⟨d, r2, hd, hrec, hcase⟩
          have hsplit : k ∈ d.calls ∨ k ∈ r2.calls := by
            rcases hcase with ⟨st2, dl, ho, rfl⟩ | ⟨ho, rfl⟩ <;>
              simpa using List.mem_append.mp (by simpa using hm)
          rcases hsplit with hd2 | hm2
          · have : k = key := drainKey_calls hd k hd2
            subst this
            exact ⟨st0, List.mem_cons_self _ _⟩
          · obtain ⟨st, hmem⟩ := ih hrec k hm2
            exact ⟨st, List.mem_cons_of_mem _ hmem⟩

theorem tickGo_remove_mem {K C H : Type} {timeout interval : Nat} {now : Nat}
    {handler : K → H → C × KeyRepeat × H} {fuel : Nat} :
    ∀ {l : List (K × Option KeyState)} {h : H} {r : TickGoRes K C H},
      tickGo timeout interval now handler fuel l h = some r →
      ∀ k, r.remove = some k → ∃ st, (k, some st) ∈ l := by
  intro l
  induction l with
  | nil => intro h r hr k hrm; rw [tickGo_nil] at hr; cases hr; cases hrm
  | cons kv rest ih =>
      obtain ⟨key, v⟩ := kv
      intro h r hr k hrm
      cases v with
      | none =>
          rw [tickGo_cons_none] at hr
          cases hrec : tickGo timeout interval now handler fuel rest h with
          | none => rw [hrec] at hr; cases hr
          | some r2 =>
              rw [hrec] at hr
              cases hr
              obtain ⟨st, hmem⟩ := ih hrec k hrm
              exact ⟨st, List.mem_cons_of_mem _ hmem⟩
      | some st0 =>
          rcases tickGo_cons_some_inv hr with ⟨d, r2, hd, hrec, hcase⟩
          rcases hcase with ⟨st2, dl, ho, rfl⟩ | ⟨ho, rfl⟩
          · obtain ⟨st, hmem⟩ := ih hrec k hrm
            exact ⟨st, List.mem_cons_of_mem _ hmem⟩
          · cases hrm
            exact ⟨st0, List.mem_cons_self _ _⟩

theorem tickGo_remove_tomb {K C H : Type} [DecidableEq K] {timeout interval : Nat}
    {now : Nat} {handler : K → H → C × KeyRepeat × H} {fuel : Nat} :
    ∀ {l : List (K × Option KeyState)} {h : H} {r : TickGoRes K C H},
      (l.map Prod.fst).Nodup →
      tickGo timeout interval now handler fuel l h = some r →
      ∀ k, r.remove = some k → lookupKey k r.pressed = some none := by
  intro l
  induction l with
  | nil => intro h r _ hr k hrm; rw [tickGo_nil] at hr; cases hr; cases hrm
  | cons kv rest ih =>
      obtain ⟨key, v⟩ := kv
      intro h r hnd hr k hrm
      rw [List.map_cons, List.nodup_cons] at hnd
      cases v with
      | none =>
          rw [tickGo_cons_none] at hr
          cases hrec : tickGo timeout interval now handler fuel rest h with
          | none => rw [hrec] at hr; cases hr
          | some r2 =>
              rw [hrec] at hr
              cases hr
              have hkmem : ∃ st, (k, some st) ∈ rest := tickGo_remove_mem hrec k hrm
              have hkey : key ≠ k := by
                rintro rfl
                obtain ⟨st, hmem⟩ := hkmem
                exact hnd.1 (List.mem_map.mpr ⟨(key, some st), hmem, rfl⟩)
              simp only [lookupKey, if_neg hkey]
              exact ih hnd.2 hrec k hrm
      | some st0 =>
          rcases tickGo_cons_some_inv hr with ⟨d, r2, hd, hrec, hcase⟩
          rcases hcase with ⟨st2, dl, ho, rfl⟩ | ⟨ho, rfl⟩
          · have hkmem : ∃ st, (k, some st) ∈ rest := tickGo_remove_mem hrec k hrm
            have hkey : key ≠ k := by
              rintro rfl
              obtain ⟨st, hmem⟩ := hkmem
              exact hnd.1 (List.mem_map.mpr ⟨(key, some st), hmem, rfl⟩)
            simp only [lookupKey, if_neg hkey]
            exact ih hnd.2 hrec k hrm
          · cases hrm
            simp [lookupKey]

theorem tickGo_fix {K C H : Type} {timeout interval : Nat} {now : Nat}
    {handler : K → H → C × KeyRepeat × H} {fuel : Nat} :
    ∀ {l : List (K × Option KeyState)} {h : H} {r : TickGoRes K C H},
      (∀ k st, (k, some st) ∈ l → ∃ d, st.next_tick = some d ∧ now < d) →
      tickGo timeout interval now handler fuel l h = some r →
      r = { changes := [], next_tick := deadlinesOf l, pressed := l, calls := [], hstate := h
            remove := none } := by
  intro l
  induction l with
  | nil => intro h r _ hr; rw [tickGo_nil] at hr; cases hr; rfl
  | cons kv rest ih =>
      obtain ⟨key, v⟩ := kv
      intro h r hlive hr
      cases v with
      | none =>
          rw [tickGo_cons_none] at hr
          cases hrec : tickGo timeout interval now handler fuel rest h with
          | none => rw [hrec] at hr; cases hr
          | some r2 =>
              rw [hrec] at hr
              cases hr
              have h2 := ih (fun k st hm => hlive k st (List.mem_cons_of_mem _ hm)) hrec
              subst h2
              simp [deadlinesOf_cons, entryDeadline, min_instant_none_left]
      | some st0 =>
          obtain ⟨dl, hnt, hlt⟩ := hlive key st0 (List.mem_cons_self _ _)
          rcases tickGo_cons_some_inv hr with ⟨d, r2, hd, hrec, hcase⟩
          cases fuel with
          | zero => rw [drainKey_zero] at hd; cases hd
          | succ fuel =>
              have hdval : d = { outcome := KeyOutcome.live st0 dl, changes := []
                                 calls := [], hstate := h } := by
                rcases drainKey_succ_inv hd with ⟨hnone, rfl⟩ | ⟨t, hnt2, hlt2, rfl⟩ |
                  ⟨t, c, h2, hnt2, hnlt, _, rfl⟩ | ⟨t, c, h2, r3, hnt2, hnlt, _, _, rfl⟩
                · rw [hnt] at hnone; cases hnone
                · rw [hnt] at hnt2
                  cases hnt2
                  rfl
                · rw [hnt] at hnt2; cases hnt2; exact absurd hlt hnlt
                · rw [hnt] at hnt2; cases hnt2; exact absurd hlt hnlt
              subst hdval
              have h2 := ih (fun k st hm => hlive k st (List.mem_cons_of_mem _ hm)) hrec
              subst h2
              rcases hcase with ⟨st2, dl2, ho, rfl⟩ | ⟨ho, rfl⟩
              · cases ho
                simp [deadlinesOf_cons, entryDeadline, hnt]
              · cases ho

theorem deadlinesOf_gt {K : Type} {now : Nat} :
    ∀ {l : List (K × Option KeyState)},
      (∀ k st, (k, some st) ∈ l → ∀ t, st.next_tick = some t → now < t) →
      ∀ d, deadlinesOf l = some d → now < d := by
  intro l
  induction l with
  | nil => intro _ d hd; cases hd
  | cons kv rest ih =>
      intro hlive d hd
      rw [deadlinesOf_cons] at hd
      refine min_instant_some_gt ?_ ?_ d hd
      · intro t ht
        obtain ⟨k0, v0⟩ := kv
        cases v0 with
        | none => cases ht
        | some st => exact hlive k0 st (List.mem_cons_self _ _) t (by simpa [entryDeadline] using ht)
      · intro t ht
        exact ih (fun k st hm t2 ht2 => hlive k st (List.mem_cons_of_mem _ hm) t2 ht2) t ht

/-! Termination of the drain loop for positive repeat intervals. -/

theorem keySteps_tick_lt {now : Nat} {timeout interval : Nat} (hi : 0 < interval)
    {s : KeyState} {t : Nat} (hnt : s.next_tick = some t) (hle : ¬ now < t) :
    keySteps now timeout (s.tick timeout interval) < keySteps now timeout s := by
  cases s with
  | Pressed p f =>
      cases f with
      | zero =>
          have ht : (KeyState.Pressed p 0).tick timeout interval
              = KeyState.Repeated p (p + timeout) 0 := rfl
          rw [ht]
          simp only [keySteps]
          omega
      | succ c =>
          have ht : (KeyState.Pressed p (Nat.succ c)).tick timeout interval
              = KeyState.Pressed p c := rfl
          rw [ht]
          simp only [keySteps]
          omega
  | Repeated p n f =>
      cases f with
      | zero =>
          have ht : (KeyState.Repeated p n 0).tick timeout interval
              = KeyState.Repeated p (n + interval) 0 := rfl
          rw [ht]
          simp [KeyState.next_tick] at hnt
          simp only [keySteps]
          omega
      | succ c =>
          have ht : (KeyState.Repeated p n (Nat.succ c)).tick timeout interval
              = KeyState.Repeated p n c := rfl
          rw [ht]
          simp only [keySteps]
          omega
  | ReleasePending p f =>
      cases f with
      | zero => simp [KeyState.next_tick] at hnt
      | succ c =>
          have ht : (KeyState.ReleasePending p (Nat.succ c)).tick timeout interval
              = KeyState.ReleasePending p (Nat.succ c - 1) := rfl
          rw [ht]
          simp only [keySteps]
          omega

theorem drainKey_isSome {K C H : Type} {timeout interval : Nat} {now : Nat}
    {handler : K → H → C × KeyRepeat × H} {key : K} (hi : 0 < interval) :
    ∀ (fuel : Nat) (s : KeyState) (h : H), keySteps now timeout s < fuel →
      (drainKey timeout interval now handler key fuel s h).isSome := by
  intro fuel
  induction fuel with
  | zero => intro s h hs; exact absurd hs (Nat.not_lt_zero _)
  | succ fuel ih =>
      intro s h hs
      cases hnt : s.next_tick with
      | none => simp [drainKey, hnt]
      | some t =>
          by_cases hlt : now < t
          · simp [drainKey, hnt, hlt]
          · obtain ⟨c, rep, h2, hh⟩ : ∃ c rep h2, handler key h = (c, rep, h2) :=
              ⟨(handler key h).1, (handler key h).2.1, (handler key h).2.2, rfl⟩
            cases rep with
            | Disabled => simp [drainKey, hnt, hlt, hh]
            | Enabled =>
                have hlt2 : keySteps now timeout (s.tick timeout interval) < fuel := by
                  have hdec : keySteps now timeout (s.tick timeout interval) <
                      keySteps now timeout s := keySteps_tick_lt hi hnt hlt
                  omega
                have hrec := ih (s.tick timeout interval) h2 hlt2
                obtain ⟨r, hr⟩ := Option.isSome_iff_exists.mp hrec
                simp [drainKey, hnt, hlt, hh, hr]

theorem tickGo_isSome {K C H : Type} {timeout interval : Nat} {now : Nat}
    {handler : K → H → C × KeyRepeat × H} (hi : 0 < interval) :
    ∀ (l : List (K × Option KeyState)) (h : H) (fuel : Nat),
      (∀ k st, (k, some st) ∈ l → keySteps now timeout st < fuel) →
      (tickGo timeout interval now handler fuel l h).isSome := by
  intro l
  induction l with
  | nil => intro h fuel _; rw [tickGo_nil]; rfl
  | cons kv rest ih =>
      obtain ⟨key, v⟩ := kv
      intro h fuel hb
      cases v with
      | none =>
          rw [tickGo_cons_none]
          have hrec := ih h fuel (fun k st hm => hb k st (List.mem_cons_of_mem _ hm))
          obtain ⟨r, hr⟩ := Option.isSome_iff_exists.mp hrec
          simp [hr]
      | some st =>
          have hd : (drainKey timeout interval now handler key fuel st h).isSome :=
            drainKey_isSome hi fuel st h (hb key st (List.mem_cons_self _ _))
          obtain ⟨d, hdeq⟩ := Option.isSome_iff_exists.mp hd
          have hrec := ih d.hstate fuel (fun k st2 hm => hb k st2 (List.mem_cons_of_mem _ hm))
          obtain ⟨r2, hreq⟩ := Option.isSome_iff_exists.mp hrec
          cases ho : d.outcome <;> simp [tickGo, hdeq, hreq, ho]

/-- Upper bound over a whole mapping on the per-key iteration counts. -/
def maxKeySteps {K : Type} (now : Nat) (timeout : Nat)
    (l : List (K × Option KeyState)) : Nat :=
  l.foldr
    (fun kv m =>
      max (match kv.2 with
           | some st => keySteps now timeout st
           | none => 0) m)
    0

theorem keySteps_le_max {K : Type} {now : Nat} {timeout : Nat} :
    ∀ {l : List (K × Option KeyState)} {k : K} {st : KeyState},
      (k, some st) ∈ l → keySteps now timeout st ≤ maxKeySteps now timeout l := by
  intro l
  induction l with
  | nil => intro k st hm; cases hm
  | cons kv rest ih =>
      intro k st hm
      rcases List.mem_cons.mp hm with heq | hm2
      · subst heq
        exact le_max_left _ _
      · exact le_trans (ih hm2) (le_max_right _ _)

/-! Inversion of the public tick operation. -/

theorem keys_tick_inv {K C H : Type} [DecidableEq K] {ks : Keys K} {now : Nat}
    {handler : K → H → C × KeyRepeat × H} {dflt : C} {orOp : C → C → C} {h : H} {fuel : Nat}
    {res : TickResult K C H}
    (hr : ks.tick now handler dflt orOp h fuel = some res) :
    ∃ r, tickGo ks.timeout ks.interval now handler fuel ks.pressed h = some r ∧
      res = { change := r.changes.foldl orOp dflt, next_tick := r.next_tick
              keys := { timeout := ks.timeout, interval := ks.interval
                        pressed :=
                          match r.remove with
                          | some key => eraseKey key r.pressed
                          | none => r.pressed }
              hstate := r.hstate, calls := r.calls } := by
  simp only [Keys.tick] at hr
  split at hr
  · cases hr
  · rename_i r heq
    cases hr
    exact ⟨r, heq, rfl⟩

/-! Registry-level helper lemmas built on the loop characterisations. -/

theorem tick_nodup_preserved {K C H : Type} [DecidableEq K] {ks : Keys K} {now : Nat}
    {handler : K → H → C × KeyRepeat × H} {dflt : C} {orOp : C → C → C} {h : H} {fuel : Nat}
    {res : TickResult K C H} (hnd : (ks.pressed.map Prod.fst).Nodup)
    (hr : ks.tick now handler dflt orOp h fuel = some res) :
    (res.keys.pressed.map Prod.fst).Nodup := by
  obtain ⟨r, hgo, rfl⟩ := keys_tick_inv hr
  have hmap := tickGo_map_fst hgo
  cases hrm : r.remove with
  | none =>
      simp only [hrm]
      rw [hmap]
      exact hnd
  | some k =>
      simp only [hrm]
      exact ((map_fst_eraseKey_sublist).nodup (by rw [hmap]; exact hnd))

theorem tick_tombAbsent_step {K C H : Type} [DecidableEq K] {ks : Keys K} {now : Nat}
    {handler : K → H → C × KeyRepeat × H} {dflt : C} {orOp : C → C → C} {h : H} {fuel : Nat}
    {res : TickResult K C H} {k : K} (hnd : (ks.pressed.map Prod.fst).Nodup)
    (hk : lookupKey k ks.pressed = some none ∨ lookupKey k ks.pressed = none)
    (hr : ks.tick now handler dflt orOp h fuel = some res) :
    k ∉ res.calls ∧
      (lookupKey k res.keys.pressed = some none ∨ lookupKey k res.keys.pressed = none) := by
  obtain ⟨r, hgo, rfl⟩ := keys_tick_inv hr
  have hmap := tickGo_map_fst hgo
  constructor
  · intro hmem
    obtain ⟨st, hstmem⟩ := tickGo_calls hgo k hmem
    rcases hk with hk | hk
    · have := lookupKey_of_mem hnd hstmem
      rw [hk] at this
      cases this
    · rw [lookupKey_eq_none] at hk
      exact hk (List.mem_map.mpr ⟨(k, some st), hstmem, rfl⟩)
  · have hremne : ∀ k2, r.remove = some k2 → k ≠ k2 := by
      intro k2 hrm hkk
      subst hkk
      obtain ⟨st, hstmem⟩ := tickGo_remove_mem hgo k hrm
      rcases hk with hk | hk
      · have := lookupKey_of_mem hnd hstmem
        rw [hk] at this
        cases this
      · rw [lookupKey_eq_none] at hk
        exact hk (List.mem_map.mpr ⟨(k, some st), hstmem, rfl⟩)
    rcases hk with hk | hk
    · left
      have hpost := tickGo_tomb hk hgo
      cases hrm : r.remove with
      | none => simpa [hrm] using hpost
      | some k2 =>
          simp only [hrm]
          rw [lookupKey_eraseKey_ne (hremne k2 hrm)]
          exact hpost
    · right
      rw [lookupKey_eq_none] at hk
      cases hrm : r.remove with
      | none =>
          simp only [hrm]
          rw [lookupKey_eq_none, hmap]
          exact hk
      | some k2 =>
          simp only [hrm]
          rw [lookupKey_eraseKey_ne (hremne k2 hrm), lookupKey_eq_none, hmap]
          exact hk

theorem tickMany_tombAbsent {K C H : Type} [DecidableEq K]
    {handler : K → H → C × KeyRepeat × H} {dflt : C} {orOp : C → C → C} :
    ∀ (ticks : List (Nat × Nat)) (ks : Keys K) (h : H) (ks2 : Keys K) (h2 : H)
      (calls : List K) (k : K),
      (ks.pressed.map Prod.fst).Nodup →
      (lookupKey k ks.pressed = some none ∨ lookupKey k ks.pressed = none) →
      Keys.tickMany handler dflt orOp ks h ticks = some (ks2, h2, calls) →
      k ∉ calls := by
  intro ticks
  induction ticks with
  | nil =>
      intro ks h ks2 h2 calls k _ _ hm
      simp only [Keys.tickMany] at hm
      cases hm
      simp
  | cons tf rest ih =>
      obtain ⟨now, fuel⟩ := tf
      intro ks h ks2 h2 calls k hnd hk hm
      simp only [Keys.tickMany] at hm
      cases heq : ks.tick now handler dflt orOp h fuel with
      | none => simp only [heq] at hm; cases hm
      | some res =>
          simp only [heq] at hm
          cases heq2 : Keys.tickMany handler dflt orOp res.keys res.hstate rest with
          | none => simp only [heq2] at hm; cases hm
          | some trip =>
              obtain ⟨ks3, h3, calls3⟩ := trip
              simp only [heq2, Option.some.injEq, Prod.mk.injEq] at hm
              obtain ⟨hm1, hm2, hm3⟩ := hm
              subst hm3
              obtain ⟨hnc, hk2⟩ := tick_tombAbsent_step hnd hk heq
              have hnd2 := tick_nodup_preserved hnd heq
              intro hmem
              rcases List.mem_append.mp hmem with hmem | hmem
              · exact hnc hmem
              · exact ih res.keys res.hstate ks3 h3 calls3 k hnd2 hk2 heq2 hmem

/-! Handlers and scenarios used by the concrete claims. -/

/-- Handler that counts its invocations in its state, reports a change and
always leaves repetition enabled. -/
def countHandler {K : Type} : K → Nat → Bool × KeyRepeat × Nat :=
  fun _ h => (true, KeyRepeat.Enabled, h + 1)

/-- Handler that disables repetition for every key it sees. -/
def disableHandler {K : Type} : K → Nat → Bool × KeyRepeat × Nat :=
  fun _ h => (true, KeyRepeat.Disabled, h + 1)

/-- The release-after-repeat scenario of the specification (units of one
second): timeout 5, interval 1, press key 0 at instant 0, release at 7,
tick at 8. -/
def scenarioReleaseAfterRepeat : Option (TickResult Nat Bool Nat) :=
  ((((Keys.new 5 1 : Keys Nat).on_key_press 0 0).on_key_release 7 0).tick 8
    countHandler false or 0 10)

/-- Registry holding two keys, 0 and 1, both pressed at instant 0 (used to
exercise tombstone removal with two simultaneous tombstones). -/
def twoKeysPressed : Keys Nat :=
  ((Keys.new 5 1).on_key_press 0 0).on_key_press 0 1

/-! Claim theorems. -/

/-- C2: releasing from `Pressed` at or after the repeat threshold first
promotes the state to `Repeated{pressed_at, pressed_at + timeout,
fire_count + 1}` and then applies the `Repeated` release rule to the
promoted state; before the threshold it goes directly to
`ReleasePending{pressed_at, fire_count + 1}`.  Concretely, with timeout 5 s
and interval 1 s, pressing at 0, releasing at 7 and ticking at 8 delivers
exactly four handler invocations and returns no next wake-up. -/
theorem on_release_pressed_promotes_and_four_fires :
    (∀ pressed_at fire_count now timeout interval : Nat,
      pressed_at + timeout ≤ now →
        (KeyState.Pressed pressed_at fire_count).on_release now timeout interval =
          (KeyState.Repeated pressed_at (pressed_at + timeout) (fire_count + 1)).on_release
            now timeout interval) ∧
    (∀ pressed_at fire_count now timeout interval : Nat,
      now < pressed_at + timeout →
        (KeyState.Pressed pressed_at fire_count).on_release now timeout interval =
          KeyState.ReleasePending pressed_at (fire_count + 1)) ∧
    scenarioReleaseAfterRepeat.map (fun r => (r.calls.length, r.next_tick)) =
      some (4, none) := by
  refine ⟨?_, ?_, ?_⟩
  · intro p f now timeout interval hle
    simp [KeyState.on_release, KeyState.on_release?, hle]
  · intro p f now timeout interval hlt
    have hnle : ¬ p + timeout ≤ now := by omega
    simp [KeyState.on_release, KeyState.on_release?, hnle]
  · rfl

/-- Witness for C2: both release branches at concrete inputs. -/
theorem on_release_pressed_promotes_and_four_fires_witness :
    ((KeyState.Pressed 0 0).on_release 5 5 1 = (KeyState.Repeated 0 5 1).on_release 5 5 1) ∧
    ((KeyState.Pressed 0 0).on_release 4 5 1 = KeyState.ReleasePending 0 1) :=
  ⟨on_release_pressed_promotes_and_four_fires.1 0 0 5 5 1 (by decide),
   on_release_pressed_promotes_and_four_fires.2.1 0 0 4 5 1 (by decide)⟩

/-- C7: the debug assertion in `KeyState::on_release` fires exactly when the
released key is in `ReleasePending` — delivering a release for a key that
was already released and not re-pressed is a fatal contract violation
(modelled by `on_release?` returning `none`), not a recoverable state
change. -/
theorem on_release_release_pending_contract_violation (s : KeyState)
    (now timeout interval : Nat) :
    s.on_release? now timeout interval = none ↔
      ∃ pressed_at fire_count, s = KeyState.ReleasePending pressed_at fire_count := by
  cases s with
  | Pressed p f =>
      simp only [KeyState.on_release?]
      constructor
      · intro h
        split at h <;> cases h
      · rintro ⟨p2, f2, h⟩
        cases h
  | Repeated p n f =>
      simp only [KeyState.on_release?]
      constructor
      · intro h
        cases h
      · rintro ⟨p2, f2, h⟩
        cases h
  | ReleasePending p f =>
      simp [KeyState.on_release?]

/-- C8: pressing a key already `Pressed` or `Repeated` leaves the registry
unchanged; releasing an untracked key leaves the registry unchanged; and a
key that was never pressed is never passed to the handler by `tick`. -/
theorem duplicate_press_and_unknown_release_noop {K : Type} [DecidableEq K] :
    (∀ (ks : Keys K) (now : Nat) (k : K) (p f : Nat),
      lookupKey k ks.pressed = some (some (KeyState.Pressed p f)) →
      ks.on_key_press now k = ks) ∧
    (∀ (ks : Keys K) (now : Nat) (k : K) (p n f : Nat),
      lookupKey k ks.pressed = some (some (KeyState.Repeated p n f)) →
      ks.on_key_press now k = ks) ∧
    (∀ (ks : Keys K) (now : Nat) (k : K),
      lookupKey k ks.pressed = none → ks.on_key_release now k = ks) ∧
    (∀ (C H : Type) (ks : Keys K) (now : Nat) (handler : K → H → C × KeyRepeat × H)
        (dflt : C) (orOp : C → C → C) (h : H) (fuel : Nat) (res : TickResult K C H) (k : K),
      k ∉ ks.pressed.map Prod.fst →
      ks.tick now handler dflt orOp h fuel = some res → k ∉ res.calls) := by
  refine ⟨?_, ?_, ?_, ?_⟩
  · intro ks now k p f hlk
    obtain ⟨timeout, interval, l⟩ := ks
    simp only [Keys.on_key_press, Keys.on_key_event] at *
    rw [hlk]
    simp [KeyState.on_press, updateKey_self hlk]
  · intro ks now k p n f hlk
    obtain ⟨timeout, interval, l⟩ := ks
    simp only [Keys.on_key_press, Keys.on_key_event] at *
    rw [hlk]
    simp [KeyState.on_press, updateKey_self hlk]
  · intro ks now k hlk
    obtain ⟨timeout, interval, l⟩ := ks
    simp only [Keys.on_key_release, Keys.on_key_event] at *
    rw [hlk]
  · intro C2 H2 ks now handler dflt orOp h fuel res k hk hr hmem
    obtain ⟨r, hgo, rfl⟩ := keys_tick_inv hr
    obtain ⟨st, hstmem⟩ := tickGo_calls hgo k hmem
    exact hk (List.mem_map.mpr ⟨(k, some st), hstmem, rfl⟩)

/-- Witness for C8: all four branches at concrete inputs. -/
theorem duplicate_press_and_unknown_release_noop_witness :
    (({ timeout := 5, interval := 1, pressed := [(0, some (KeyState.Pressed 3 2))] } :
        Keys Nat).on_key_press 4 0 =
      { timeout := 5, interval := 1, pressed := [(0, some (KeyState.Pressed 3 2))] }) ∧
    (({ timeout := 5, interval := 1, pressed := [(0, some (KeyState.Repeated 3 8 2))] } :
        Keys Nat).on_key_press 9 0 =
      { timeout := 5, interval := 1, pressed := [(0, some (KeyState.Repeated 3 8 2))] }) ∧
    ((Keys.new 5 1 : Keys Nat).on_key_release 4 7 = Keys.new 5 1) ∧
    (5 : Nat) ∉ ({ change := true, next_tick := some 5
                   keys := { timeout := 5, interval := 1
                             pressed := [(0, some (KeyState.Repeated 0 5 0))] }
                   hstate := 1, calls := [0] } : TickResult Nat Bool Nat).calls :=
  ⟨duplicate_press_and_unknown_release_noop.1 _ 4 0 3 2 rfl,
   duplicate_press_and_unknown_release_noop.2.1 _ 9 0 3 8 2 rfl,
   duplicate_press_and_unknown_release_noop.2.2.1 _ 4 7 rfl,
   duplicate_press_and_unknown_release_noop.2.2.2 Bool Nat
     { timeout := 5, interval := 1, pressed := [(0, some (KeyState.Pressed 0 0))] } 0
     countHandler false or 0 10 _ 5 (by decide) rfl⟩

/-- C9: for every registry with a strictly positive repeat interval and
every handler, the tick loop terminates — there is a fuel bound with which
the embedded loop completes (the source nowhere enforces a positive
interval; this is the precondition the loop needs). -/
theorem tick_terminates {K C H : Type} [DecidableEq K] (ks : Keys K) (now : Nat)
    (handler : K → H → C × KeyRepeat × H) (dflt : C) (orOp : C → C → C) (h : H)
    (hi : 0 < ks.interval) :
    ∃ fuel, (ks.tick now handler dflt orOp h fuel).isSome := by
  refine ⟨maxKeySteps now ks.timeout ks.pressed + 1, ?_⟩
  have hgo : (tickGo ks.timeout ks.interval now handler
      (maxKeySteps now ks.timeout ks.pressed + 1) ks.pressed h).isSome :=
    tickGo_isSome hi ks.pressed h (maxKeySteps now ks.timeout ks.pressed + 1)
      (fun k st hm => lt_of_le_of_lt (keySteps_le_max hm) (Nat.lt_succ_self _))
  obtain ⟨r, hr⟩ := Option.isSome_iff_exists.mp hgo
  simp [Keys.tick, hr]

/-- Witness for C9 at a concrete registry with interval 1. -/
theorem tick_terminates_witness :
    ∃ fuel, (({ timeout := 5, interval := 1
                pressed := [(0, some (KeyState.Pressed 0 0))] } : Keys Nat).tick 100
      countHandler false or 0 fuel).isSome :=
  tick_terminates _ 100 countHandler false or 0 (by decide)

/-- C10: whenever `tick` returns a present next wake-up deadline, that
deadline lies strictly in the future of the `now` argument of the call. -/
theorem tick_wakeup_strictly_future {K C H : Type} [DecidableEq K] (ks : Keys K)
    (now : Nat) (handler : K → H → C × KeyRepeat × H) (dflt : C) (orOp : C → C → C)
    (h : H) (fuel : Nat) (res : TickResult K C H) (d : Nat)
    (hr : ks.tick now handler dflt orOp h fuel = some res)
    (hd : res.next_tick = some d) : now < d := by
  obtain ⟨r, hgo, rfl⟩ := keys_tick_inv hr
  have h1 := tickGo_next hgo
  have h2 : r.next_tick = some d := hd
  rw [h1] at h2
  refine deadlinesOf_gt ?_ d h2
  intro k st hm t ht
  obtain ⟨d2, hd2, hlt⟩ := tickGo_live hgo k st hm
  rw [ht] at hd2
  cases hd2
  exact hlt

/-- Witness for C10: the first wake-up after a press at instant 0 is 5. -/
theorem tick_wakeup_strictly_future_witness : (0 : Nat) < 5 :=
  tick_wakeup_strictly_future
    { timeout := 5, interval := 1, pressed := [(0, some (KeyState.Pressed 0 0))] } 0
    countHandler false or 0 10
    { change := true, next_tick := some 5
      keys := { timeout := 5, interval := 1
                pressed := [(0, some (KeyState.Repeated 0 5 0))] }
      hstate := 1, calls := [0] } 5 rfl rfl

/-- C3: the next wake-up returned by `tick` is the `min_instant`-minimum of
the deadlines of exactly the tracked keys that stayed live this call (each
of which stopped being processed because its next due instant was strictly
after `now`); tombstoned keys contribute nothing, and with no contribution
the result is `none` (`deadlinesOf` of an all-tombstone map is `none`). -/
theorem tick_next_wakeup_is_min {K C H : Type} [DecidableEq K] (ks : Keys K) (now : Nat)
    (handler : K → H → C × KeyRepeat × H) (dflt : C) (orOp : C → C → C) (h : H)
    (fuel : Nat) (res : TickResult K C H)
    (hnd : (ks.pressed.map Prod.fst).Nodup)
    (hr : ks.tick now handler dflt orOp h fuel = some res) :
    res.next_tick = deadlinesOf res.keys.pressed ∧
    ∀ k st, (k, some st) ∈ res.keys.pressed → ∃ d, st.next_tick = some d ∧ now < d := by
  obtain ⟨r, hgo, rfl⟩ := keys_tick_inv hr
  constructor
  · have h1 := tickGo_next hgo
    cases hrm : r.remove with
    | none => simpa [hrm] using h1
    | some k2 =>
        have htomb := tickGo_remove_tomb hnd hgo k2 hrm
        have h2 := deadlinesOf_eraseKey htomb
        simp only [hrm]
        rw [h1, ← h2]
  · intro k st hm
    cases hrm : r.remove with
    | none =>
        simp only [hrm] at hm
        exact tickGo_live hgo k st hm
    | some k2 =>
        simp only [hrm] at hm
        exact tickGo_live hgo k st (mem_eraseKey hm)

/-- Witness for C3 at a single-key registry ticked at instant 0. -/
theorem tick_next_wakeup_is_min_witness :
    ((some 5 : Option Nat) = deadlinesOf [((0 : Nat), some (KeyState.Repeated 0 5 0))]) ∧
    ∀ k st, (k, some st) ∈ [((0 : Nat), some (KeyState.Repeated 0 5 0))] →
      ∃ d, st.next_tick = some d ∧ 0 < d :=
  tick_next_wakeup_is_min
    { timeout := 5, interval := 1, pressed := [(0, some (KeyState.Pressed 0 0))] } 0
    countHandler false or 0 10
    { change := true, next_tick := some 5
      keys := { timeout := 5, interval := 1
                pressed := [(0, some (KeyState.Repeated 0 5 0))] }
      hstate := 1, calls := [0] }
    (by decide) rfl

/-- C6: a second `tick` at the same instant with no intervening press or
release events invokes the handler zero times (empty call trace), returns
the neutral aggregate, and returns the same next wake-up as the first
call. -/
theorem tick_same_instant_idempotent {K C H : Type} [DecidableEq K] (ks : Keys K)
    (now : Nat) (handler handler2 : K → H → C × KeyRepeat × H) (dflt dflt2 : C)
    (orOp orOp2 : C → C → C) (h h2 : H) (fuel fuel2 : Nat) (r1 r2 : TickResult K C H)
    (hnd : (ks.pressed.map Prod.fst).Nodup)
    (h1 : ks.tick now handler dflt orOp h fuel = some r1)
    (h2t : r1.keys.tick now handler2 dflt2 orOp2 h2 fuel2 = some r2) :
    r2.calls = [] ∧ r2.change = dflt2 ∧ r2.next_tick = r1.next_tick := by
  obtain ⟨r, hgo, rfl⟩ := keys_tick_inv h1
  obtain ⟨r2go, hgo2, rfl⟩ := keys_tick_inv h2t
  have hlive : ∀ k st,
      (k, some st) ∈ (match r.remove with
        | some key => eraseKey key r.pressed
        | none => r.pressed) → ∃ d, st.next_tick = some d ∧ now < d := by
    intro k st hm
    cases hrm : r.remove with
    | none =>
        simp only [hrm] at hm
        exact tickGo_live hgo k st hm
    | some k2 =>
        simp only [hrm] at hm
        exact tickGo_live hgo k st (mem_eraseKey hm)
  have hfix := tickGo_fix hlive hgo2
  subst hfix
  refine ⟨rfl, rfl, ?_⟩
  have h1n := tickGo_next hgo
  cases hrm : r.remove with
  | none =>
      simp only [hrm]
      exact h1n.symm
  | some k2 =>
      simp only [hrm]
      rw [deadlinesOf_eraseKey (tickGo_remove_tomb hnd hgo k2 hrm)]
      exact h1n.symm

/-- Witness for C6: two consecutive ticks at instant 0 after one press. -/
theorem tick_same_instant_idempotent_witness :
    ([] : List Nat) = [] ∧ false = false ∧ (some 5 : Option Nat) = some 5 :=
  tick_same_instant_idempotent
    { timeout := 5, interval := 1, pressed := [(0, some (KeyState.Pressed 0 0))] } 0
    countHandler countHandler false false or or 0 0 10 10
    { change := true, next_tick := some 5
      keys := { timeout := 5, interval := 1
                pressed := [(0, some (KeyState.Repeated 0 5 0))] }
      hstate := 1, calls := [0] }
    { change := false, next_tick := some 5
      keys := { timeout := 5, interval := 1
                pressed := [(0, some (KeyState.Repeated 0 5 0))] }
      hstate := 0, calls := [] }
    (by decide) rfl rfl

/-- C4: a handler that leaves the repeat flag disabled tombstones the key
immediately — that delivery is the only handler call of the drain and the
state is not advanced afterwards; a tombstoned (or absent) key is never
passed to the handler by a later `tick` call and stays tombstoned or
absent, across arbitrarily many tick calls, while a tombstoned entry is
completely transparent to the processing of all other keys. -/
theorem tick_disable_stops_delivery {K : Type} [DecidableEq K] :
    (∀ (C H : Type) (timeout interval now : Nat) (handler : K → H → C × KeyRepeat × H)
        (key : K) (fuel : Nat) (s : KeyState) (h h2 : H) (c : C) (t : Nat),
      s.next_tick = some t → ¬ now < t → handler key h = (c, KeyRepeat.Disabled, h2) →
      drainKey timeout interval now handler key (fuel + 1) s h =
        some { outcome := KeyOutcome.dead, changes := [c], calls := [key], hstate := h2 }) ∧
    (∀ (C H : Type) (ks : Keys K) (now : Nat) (handler : K → H → C × KeyRepeat × H)
        (dflt : C) (orOp : C → C → C) (h : H) (fuel : Nat) (res : TickResult K C H) (k : K),
      (ks.pressed.map Prod.fst).Nodup →
      (lookupKey k ks.pressed = some none ∨ lookupKey k ks.pressed = none) →
      ks.tick now handler dflt orOp h fuel = some res →
      k ∉ res.calls ∧
        (lookupKey k res.keys.pressed = some none ∨ lookupKey k res.keys.pressed = none)) ∧
    (∀ (C H : Type) (handler : K → H → C × KeyRepeat × H) (dflt : C) (orOp : C → C → C)
        (ks : Keys K) (h : H) (ticks : List (Nat × Nat)) (ks2 : Keys K) (h2 : H)
        (calls : List K) (k : K),
      (ks.pressed.map Prod.fst).Nodup →
      (lookupKey k ks.pressed = some none ∨ lookupKey k ks.pressed = none) →
      Keys.tickMany handler dflt orOp ks h ticks = some (ks2, h2, calls) → k ∉ calls) ∧
    (∀ (C H : Type) (timeout interval now : Nat) (handler : K → H → C × KeyRepeat × H)
        (fuel : Nat) (key : K) (rest : List (K × Option KeyState)) (h : H),
      tickGo timeout interval now handler fuel ((key, none) :: rest) h =
        (tickGo timeout interval now handler fuel rest h).map
          (fun r => { changes := r.changes, next_tick := r.next_tick
                      pressed := (key, none) :: r.pressed, calls := r.calls
                      hstate := r.hstate, remove := r.remove })) := by
  refine ⟨?_, ?_, ?_, ?_⟩
  · intro C2 H2 timeout interval now handler key fuel s h h2 c t hnt hlt hh
    simp [drainKey, hnt, hlt, hh]
  · intro C2 H2 ks now handler dflt orOp h fuel res k hnd hk hr
    exact tick_tombAbsent_step hnd hk hr
  · intro C2 H2 handler dflt orOp ks h ticks ks2 h2 calls k hnd hk hm
    exact tickMany_tombAbsent ticks ks h ks2 h2 calls k hnd hk hm
  · intro C2 H2 timeout interval now handler fuel key rest h
    exact tickGo_cons_none

/-- Witness for C4: all four parts at concrete inputs (a key disabled at
once; tombstone key 1 untouched by one tick and by a two-tick sequence;
transparency of a tombstone entry). -/
theorem tick_disable_stops_delivery_witness :
    (drainKey 5 1 0 disableHandler 0 (9 + 1) (KeyState.Pressed 0 0) 0 =
      some { outcome := KeyOutcome.dead, changes := [true], calls := [0], hstate := 1 }) ∧
    ((1 : Nat) ∉ [(0 : Nat)] ∧
      (lookupKey (1 : Nat) [((0 : Nat), some (KeyState.Repeated 0 5 0)), (1, none)] =
          some none ∨
        lookupKey (1 : Nat) [((0 : Nat), some (KeyState.Repeated 0 5 0)), (1, none)] =
          none)) ∧
    ((1 : Nat) ∉ [(0 : Nat)]) ∧
    (tickGo 5 1 0 (countHandler : Nat → Nat → Bool × KeyRepeat × Nat) 10
        [((1 : Nat), none)] 0 =
      (tickGo 5 1 0 countHandler 10 ([] : List (Nat × Option KeyState)) 0).map
        (fun r => { changes := r.changes, next_tick := r.next_tick
                    pressed := ((1 : Nat), none) :: r.pressed, calls := r.calls
                    hstate := r.hstate, remove := r.remove })) :=
  ⟨tick_disable_stops_delivery.1 Bool Nat 5 1 0 disableHandler 0 9
      (KeyState.Pressed 0 0) 0 1 true 0 rfl (by decide) rfl,
   tick_disable_stops_delivery.2.1 Bool Nat
      { timeout := 5, interval := 1
        pressed := [(0, some (KeyState.Pressed 0 0)), (1, none)] } 0
      countHandler false or 0 10
      { change := true, next_tick := some 5
        keys := { timeout := 5, interval := 1
                  pressed := [(0, some (KeyState.Repeated 0 5 0)), (1, none)] }
        hstate := 1, calls := [0] } 1
      (by decide) (Or.inl rfl) rfl,
   tick_disable_stops_delivery.2.2.1 Bool Nat countHandler false or
      { timeout := 5, interval := 1
        pressed := [(0, some (KeyState.Pressed 0 0)), (1, none)] } 0
      [(0, 10), (1, 10)]
      { timeout := 5, interval := 1
        pressed := [(0, some (KeyState.Repeated 0 5 0)), (1, none)] } 1 [0] 1
      (by decide) (Or.inl rfl) rfl,
   tick_disable_stops_delivery.2.2.2 Bool Nat 5 1 0 countHandler 10 1 [] 0⟩

/-- C5: every single tick call removes at most one key from the mapping
(proved in general below); the reclamation clause fails on the code: after
the handler disables both keys of `twoKeysPressed` in one tick call, key 0
is physically removed but key 1 stays behind as a tombstone, and a
subsequent tick call performs no handler invocation and no removal and
returns the registry unchanged — the loop records only keys tombstoned
during the same call for removal, so it never reclaims a pre-existing
tombstone (even though the source comment next to the removal says repeated
invocations will clear all such keys). -/
theorem tick_removes_at_most_one {K : Type} [DecidableEq K] :
    (∀ (C H : Type) (ks : Keys K) (now : Nat) (handler : K → H → C × KeyRepeat × H)
        (dflt : C) (orOp : C → C → C) (h : H) (fuel : Nat) (res : TickResult K C H),
      ks.tick now handler dflt orOp h fuel = some res →
      ks.pressed.length ≤ res.keys.pressed.length + 1) ∧
    (twoKeysPressed.tick 0 disableHandler false or 0 10).map
        (fun r => (r.keys.pressed, r.calls)) = some ([(1, none)], [0, 1]) ∧
    (({ timeout := 5, interval := 1, pressed := [(1, none)] } : Keys Nat).tick 1
        disableHandler false or 0 10).map (fun r => (r.keys, r.calls)) =
      some ({ timeout := 5, interval := 1, pressed := [(1, none)] }, []) := by
  refine ⟨?_, rfl, rfl⟩
  intro C2 H2 ks now handler dflt orOp h fuel res hr
  obtain ⟨r, hgo, rfl⟩ := keys_tick_inv hr
  have hmap := tickGo_map_fst hgo
  have hlen : r.pressed.length = ks.pressed.length := by
    have h2 := congrArg List.length hmap
    simpa using h2
  cases hrm : r.remove with
  | none =>
      simp only [hrm]
      omega
  | some k2 =>
      simp only [hrm]
      have hle : r.pressed.length ≤ (eraseKey k2 r.pressed).length + 1 := eraseKey_length
      omega

/-- Witness for C5: the generic bound applied to the two-key registry whose
keys both get disabled. -/
theorem tick_removes_at_most_one_witness : twoKeysPressed.pressed.length ≤ 1 + 1 :=
  tick_removes_at_most_one.1 Bool Nat twoKeysPressed 0 disableHandler false or 0 10
    { change := true, next_tick := none
      keys := { timeout := 5, interval := 1, pressed := [(1, none)] }
      hstate := 2, calls := [0, 1] } rfl

/-- Exact representability as an IEEE-754 binary64 value at negative binade
scale `e`: the rational equals `m / 2 ^ e` for an integer significand of
magnitude below `2 ^ 53`. -/
def reprF64 (e : Nat) (q : ℚ) : Prop :=
  ∃ m : ℤ, m.natAbs < 2 ^ 53 ∧ q = (m : ℚ) / 2 ^ e

/-- C1: the claimed release rule for `Repeated` — the exact formula
`fire_count + floor(elapsed / interval) (+ 1 if now > next_repeat)`, which
is also the embedding used throughout this file — yields backlog 4 for a
release 300 ms past `next_repeat` with a 100 ms interval (first conjunct).
The source, however, computes the quotient with IEEE-754 double division of
`as_secs_f64` values: the doubles nearest to 0.3 and 0.1 (each within half
an ulp, scales 2 ^ -54 and 2 ^ -56) have an exact ratio strictly between
2 and 3 - 2 ^ -52, so any quotient within half an ulp (2 ^ -52 at scale
2 ^ -51) of it truncates to 2 (second conjunct) — the code therefore adds
2 + 1 = 3, not the claimed 3 + 1 = 4. -/
theorem on_release_float_backlog_code_bug :
    ((KeyState.Repeated 0 0 0).on_release 300000000 1000000000 100000000 =
      KeyState.ReleasePending 0 4) ∧
    (∀ a b r : ℚ,
      reprF64 54 a → |a - 3 / 10| ≤ 1 / 2 ^ 55 →
      reprF64 56 b → |b - 1 / 10| ≤ 1 / 2 ^ 57 →
      |r - a / b| ≤ 1 / 2 ^ 52 →
      Int.floor r = 2) := by
  constructor
  · rfl
  · intro a b r ha haq hb hbq hr
    obtain ⟨ma, hma, rfl⟩ := ha
    obtain ⟨mb, hmb, rfl⟩ := hb
    obtain ⟨ha1, ha2⟩ := abs_le.mp haq
    obtain ⟨hb1, hb2⟩ := abs_le.mp hbq
    obtain ⟨hr1, hr2⟩ := abs_le.mp hr
    have hma1 : ((10 * ma : ℤ) : ℚ) ≤ 54043195528445957 := by
      push_cast
      linarith
    have hma2 : (54043195528445947 : ℚ) ≤ ((10 * ma : ℤ) : ℚ) := by
      push_cast
      linarith
    have hmaz : ma = 5404319552844595 := by
      have h1 : (10 * ma : ℤ) ≤ 54043195528445957 := by exact_mod_cast hma1
      have h2 : (54043195528445947 : ℤ) ≤ 10 * ma := by exact_mod_cast hma2
      omega
    have hmb1 : ((10 * mb : ℤ) : ℚ) ≤ 72057594037927941 := by
      push_cast
      linarith
    have hmb2 : (72057594037927931 : ℚ) ≤ ((10 * mb : ℤ) : ℚ) := by
      push_cast
      linarith
    have hmbz : mb = 7205759403792794 := by
      have h1 : (10 * mb : ℤ) ≤ 72057594037927941 := by exact_mod_cast hmb1
      have h2 : (72057594037927931 : ℤ) ≤ 10 * mb := by exact_mod_cast hmb2
      omega
    subst hmaz
    subst hmbz
    have hq1 : (2 : ℚ) + 1 / 2 ^ 52 ≤
        ((5404319552844595 : ℤ) : ℚ) / 2 ^ 54 / (((7205759403792794 : ℤ) : ℚ) / 2 ^ 56) := by
      push_cast
      rw [div_div_div_comm, le_div_iff₀ (by norm_num)]
      norm_num
    have hq2 : ((5404319552844595 : ℤ) : ℚ) / 2 ^ 54 / (((7205759403792794 : ℤ) : ℚ) / 2 ^ 56) +
        1 / 2 ^ 52 < 3 := by
      push_cast
      rw [div_div_div_comm]
      rw [div_add' _ _ _ (by norm_num), div_lt_iff₀ (by norm_num)]
      norm_num
    have hlow : (2 : ℚ) ≤ r := by linarith
    have hhigh : r < 3 := by linarith
    rw [Int.floor_eq_iff]
    constructor
    · exact_mod_cast hlow
    · push_cast
      linarith

/-- Witness for C1: the doubles nearest to 0.3 and 0.1 and the correctly
rounded quotient 3 - 2 ^ -51 satisfy all rounding hypotheses, and that
quotient indeed truncates to 2. -/
theorem on_release_float_backlog_code_bug_witness :
    Int.floor ((13510798882111486 : ℚ) / 2 ^ 52) = 2 :=
  on_release_float_backlog_code_bug.2 ((5404319552844595 : ℚ) / 2 ^ 54)
    ((7205759403792794 : ℚ) / 2 ^ 56) ((13510798882111486 : ℚ) / 2 ^ 52)
    ⟨5404319552844595, by norm_num, by norm_num⟩
    (by rw [abs_le]; constructor <;> norm_num)
    ⟨7205759403792794, by norm_num, by norm_num⟩
    (by rw [abs_le]; constructor <;> norm_num)
    (by rw [abs_le]; constructor <;> norm_num)
